import Mathlib

/-!
Verification of the reactive state container in `soso/state/state.py`.

The embedding models Python values of the kinds the state container
manipulates (`Val`), the recorded path operations (`Op`, mirroring the
classes `GetAttr`, `SetAttr`, `GetItem`, `SetItem`, `Call`), the
notification trie (`Node`), and the `Model` operations
(`observe_property`, `_update_state`, `snapshot_property`,
`restore_property`, `_SubModel`).

Python's in-place mutation of sub-objects reached by attribute/item
access is modelled by functional update at the access path
(`modifyAt`); channels are identified by the trie position (list of
keys from the root), and an emission on a channel is recorded as a
`(path, payload)` pair in the order the code emits.  Exceptions are
modelled with `Except Err`.  Values have value semantics (the state is
deep-copied at the model boundary in the source, and claims do not
depend on object identity inside containers).
-/

namespace Soso

/-- Keys of item access (Python ints and strings); attribute keys are strings. -/
inductive Key where
  | str : String → Key
  | int : Int → Key
deriving DecidableEq, Repr

/-- A Python float: either NaN or a finite value (finite payloads are
modelled by integers; no claim depends on fractional float values). -/
inductive PyFloat where
  | nan : PyFloat
  | fin : Int → PyFloat
deriving DecidableEq, Repr

/-- The list methods a recorded `Call` can invoke in this embedding
(both return `None` in Python, like `list.append` / `list.clear`). -/
inductive MethName where
  | append : MethName
  | clear : MethName
deriving DecidableEq, BEq, Repr

/-- Python exceptions distinguished by the source: `SetItem.execute`
catches `KeyError` only; `observe_property` catches everything. -/
inductive Err where
  | attrError : Err
  | keyError : Err
  | indexError : Err
  | typeError : Err
  | assertionError : Err
deriving DecidableEq, Repr

/-- Python values of the kinds the state container manipulates:
`None`, ints, floats, strings, dataclass instances (class name plus
ordered fields), lists, dicts (insertion-ordered), and bound methods. -/
inductive Val where
  | pynone : Val
  | int : Int → Val
  | float : PyFloat → Val
  | str : String → Val
  | record : String → List (Key × Val) → Val
  | list : List Val → Val
  | dict : List (Key × Val) → Val
  | method : MethName → Val → Val
deriving Repr

/-- The source's `isinstance(v, float)`. -/
def Val.isFloat : Val → Bool
  | .float _ => true
  | _ => false

/-- The value is the float NaN. -/
def Val.isNan : Val → Bool
  | .float .nan => true
  | _ => false

/-- The source's `math.isnan(v)`: defined on numbers, raises `TypeError` otherwise. -/
def mathIsnan : Val → Except Err Bool
  | .float .nan => .ok true
  | .float (.fin _) => .ok false
  | .int _ => .ok false
  | _ => .error .typeError

/-- First-match association lookup in a field/entry list (dataclass
fields carry `Key.str` keys; dicts carry arbitrary keys). -/
def lookupKey : List (Key × Val) → Key → Option Val
  | [], _ => none
  | (k, v) :: rest, key => if k = key then some v else lookupKey rest key

/-- Replace the value under a key in place, or append a new entry at the
end (Python `setattr` / dict insertion keep positions of existing keys). -/
def assocSetKey : List (Key × Val) → Key → Val → List (Key × Val)
  | [], key, v => [(key, v)]
  | (k, w) :: rest, key, v =>
    if k = key then (k, v) :: rest else (k, w) :: assocSetKey rest key v

/-- Python list indexing: non-negative indices below the length, or
negative indices counted from the end. -/
def pyIndex (len : Nat) (i : Int) : Option Nat :=
  if 0 ≤ i then (if i < (len : Int) then some i.toNat else none)
  else (if 0 ≤ (len : Int) + i then some ((len : Int) + i).toNat else none)

mutual
/-- Python `==` on the modelled value universe: numeric cross-kind
equality, NaN unequal to everything (including NaN), dataclasses of the
same class by the tuple of field values (dataclass `__eq__`), lists
elementwise, dicts by key lookup. -/
def pyEq : Val → Val → Bool
  | .pynone, .pynone => true
  | .int a, .int b => a == b
  | .int a, .float (.fin q) => a == q
  | .float (.fin q), .int b => q == b
  | .float (.fin a), .float (.fin b) => a == b
  | .str a, .str b => a == b
  | .record c1 f1, .record c2 f2 => c1 == c2 && pyEqFields f1 f2
  | .list xs, .list ys => pyEqList xs ys
  | .dict es, .dict fs => es.length == fs.length && pyEqEntries es fs
  | .method m1 s1, .method m2 s2 => m1 == m2 && pyEq s1 s2
  | _, _ => false
termination_by structural v _ => v

/-- Dataclass `__eq__` compares the tuples of field values of two
instances of the same class (names coincide for a common class, so
only values are compared, in declaration order). -/
def pyEqFields : List (Key × Val) → List (Key × Val) → Bool
  | [], [] => true
  | (_, v1) :: r1, (_, v2) :: r2 => pyEq v1 v2 && pyEqFields r1 r2
  | _, _ => false
termination_by structural l _ => l

def pyEqList : List Val → List Val → Bool
  | [], [] => true
  | x :: xs, y :: ys => pyEq x y && pyEqList xs ys
  | _, _ => false
termination_by structural l _ => l

def pyEqEntries : List (Key × Val) → List (Key × Val) → Bool
  | [], _ => true
  | (k, v) :: rest, fs =>
    (match lookupKey fs k with
     | some w => pyEq v w
     | none => false) && pyEqEntries rest fs
termination_by structural l _ => l
end

/-- The source's `getattr(obj, key)`: dataclass field lookup, or a bound method of a
list (`append`, `clear`); anything else raises `AttributeError`. -/
def getattrVal : Val → String → Except Err Val
  | .record _ fs, k =>
    (match lookupKey fs (.str k) with
     | some v => .ok v
     | none => .error .attrError)
  | .list xs, k =>
    if k = "append" then .ok (.method .append (.list xs))
    else if k = "clear" then .ok (.method .clear (.list xs))
    else .error .attrError
  | _, _ => .error .attrError

/-- The source's `obj[key]`: list indexing (`IndexError` out of range), dict lookup
(`KeyError` when missing), `TypeError` on non-subscriptable values. -/
def getitemVal : Val → Key → Except Err Val
  | .list xs, .int i =>
    (match pyIndex xs.length i with
     | some n =>
       (match xs.get? n with
        | some v => .ok v
        | none => .error .indexError)
     | none => .error .indexError)
  | .list _, .str _ => .error .typeError
  | .dict es, k =>
    (match lookupKey es k with
     | some v => .ok v
     | none => .error .keyError)
  | _, _ => .error .typeError

/-- The source's `obj.__call__`: defined for bound methods, `AttributeError` otherwise
(`Call.get_value`). -/
def callDunder : Val → Except Err Val
  | .method m s => .ok (.method m s)
  | _ => .error .attrError

/-- The source's `setattr(obj, key, value)` on a dataclass instance. -/
def setattrRaw : Val → String → Val → Except Err Val
  | .record c fs, k, v => .ok (.record c (assocSetKey fs (.str k) v))
  | _, _, _ => .error .attrError

/-- The source's `obj[key] = value` on lists and dicts. -/
def setitemRaw : Val → Key → Val → Except Err Val
  | .list xs, .int i, v =>
    (match pyIndex xs.length i with
     | some n => .ok (.list (xs.set n v))
     | none => .error .indexError)
  | .list _, .str _, _ => .error .typeError
  | .dict es, k, v => .ok (.dict (assocSetKey es k v))
  | _, _, _ => .error .typeError

/-- One recorded path operation (the dataclasses `GetAttr`, `SetAttr`,
`GetItem`, `SetItem`, `Call` of the source). -/
inductive Op where
  | getAttr : String → Op
  | setAttr : String → Val → Op
  | getItem : Key → Op
  | setItem : Key → Val → Op
  | call : List Val → Op
deriving Repr

/-- The `key` attribute of each operation (`Call.key = '__call__'`). -/
def Op.key : Op → Key
  | .getAttr k => .str k
  | .setAttr k _ => .str k
  | .getItem k => k
  | .setItem k _ => k
  | .call _ => .str "__call__"

/-- The operation is a bare read (`GetAttr` or `GetItem`). -/
def Op.isRead : Op → Bool
  | .getAttr _ => true
  | .getItem _ => true
  | _ => false

/-- The source's `op.get_value(obj)`: the pure read each operation class implements
(writes read the value at their key; `Call` reads `obj.__call__`). -/
def getValueOp : Op → Val → Except Err Val
  | .getAttr k, obj => getattrVal obj k
  | .setAttr k _, obj => getattrVal obj k
  | .getItem k, obj => getitemVal obj k
  | .setItem k _, obj => getitemVal obj k
  | .call _, obj => callDunder obj

/-- The source's `Model.__get_value_for_ops`: replay `get_value` along the ops. -/
def getValueForOps (root : Val) : List Op → Except Err Val
  | [] => .ok root
  | op :: rest =>
    (match getValueOp op root with
     | .ok v => getValueForOps v rest
     | .error e => .error e)

/-- Functional update at the location designated by a prefix of read
operations: models Python's in-place mutation of the aliased sub-object
reached by replaying the reads. -/
def modifyAt : Val → List Op → (Val → Except Err Val) → Except Err Val
  | v, [], f => f v
  | .record c fs, .getAttr k :: rest, f =>
    (match lookupKey fs (.str k) with
     | some v =>
       (match modifyAt v rest f with
        | .ok v' => .ok (.record c (assocSetKey fs (.str k) v'))
        | .error e => .error e)
     | none => .error .attrError)
  | .list xs, .getItem (.int i) :: rest, f =>
    (match pyIndex xs.length i with
     | some n =>
       (match xs.get? n with
        | some v =>
          (match modifyAt v rest f with
           | .ok v' => .ok (.list (xs.set n v'))
           | .error e => .error e)
        | none => .error .indexError)
     | none => .error .indexError)
  | .dict es, .getItem k :: rest, f =>
    (match lookupKey es k with
     | some v =>
       (match modifyAt v rest f with
        | .ok v' => .ok (.dict (assocSetKey es k v'))
        | .error e => .error e)
     | none => .error .keyError)
  | _, _ :: _, _ => .error .typeError

/-- The source's `SetAttr.execute`: read the current attribute value, compare with
`!=`, apply the NaN special case (with Python's short-circuit: when the
current value is a non-NaN float the new value is never passed to
`math.isnan`), and perform `setattr` only on change.  Returns the
updated object and the `changed` flag. -/
def SetAttr.execute (key : String) (value : Val) (obj : Val) :
    Except Err (Val × Bool) :=
  match getattrVal obj key with
  | .error e => .error e
  | .ok curr =>
    match (if !pyEq curr value && curr.isFloat then
             (if !curr.isNan then Except.ok true
              else
                (match mathIsnan value with
                 | .ok b => .ok (!b)
                 | .error e => .error e))
           else .ok (!pyEq curr value) : Except Err Bool) with
    | .error e => .error e
    | .ok changed =>
      if changed then
        (match setattrRaw obj key value with
         | .ok obj' => .ok (obj', true)
         | .error e => .error e)
      else .ok (obj, false)

/-- The source's `SetItem.execute`: like `SetAttr.execute` for item writes, except a
`KeyError` while reading the current value is caught and treated as a
change; any other exception (e.g. `IndexError`) propagates. -/
def SetItem.execute (key : Key) (value : Val) (obj : Val) :
    Except Err (Val × Bool) :=
  match (match getitemVal obj key with
         | .ok curr =>
           if !pyEq curr value && curr.isFloat then
             (if !curr.isNan then Except.ok true
              else
                (match mathIsnan value with
                 | .ok b => .ok (!b)
                 | .error e => .error e))
           else .ok (!pyEq curr value)
         | .error .keyError => .ok true
         | .error e => .error e : Except Err Bool) with
  | .error e => .error e
  | .ok changed =>
    if changed then
      (match setitemRaw obj key value with
       | .ok obj' => .ok (obj', true)
       | .error e => .error e)
    else .ok (obj, false)

/-- Effect of calling a bound list method (`list.append(v)` appends,
`list.clear()` empties; both return `None`, wrong arity is a
`TypeError`). -/
def applyMeth : MethName → List Val → Val → Except Err Val
  | .append, [v], .list xs => .ok (.list (xs ++ [v]))
  | .clear, [], .list _ => .ok (.list [])
  | _, _, _ => .error .typeError

/-- The current object threaded through `_update_state`'s execute loop:
either an alias to the sub-object reached by a prefix of read
operations, or a bound method of the object at such a prefix. -/
inductive Cur where
  | val : List Op → Cur
  | meth : MethName → List Op → Cur
deriving Repr

/-- The source's `op.execute(obj)` threaded against the whole state: returns the next
current object (`none` ends the statement), the `changed` flag and the
updated state.  The loop detects the end of a statement by `obj is
None`, so a read whose resulting value is Python `None` also ends the
statement (with `changed = False`, like any read); other reads extend
the alias prefix; writes compare and mutate at the prefix and return
`None`; `Call` performs the bound method (returning `None`) and reports
a change unconditionally. -/
def execOp (state : Val) (cur : Cur) (op : Op) :
    Except Err (Option Cur × Bool × Val) :=
  match cur, op with
  | .val pre, .getAttr k =>
    (match getValueForOps state pre with
     | .error e => .error e
     | .ok obj =>
       (match getattrVal obj k with
        | .error e => .error e
        | .ok .pynone => .ok (none, false, state)
        | .ok (.method m _) => .ok (some (.meth m pre), false, state)
        | .ok _ => .ok (some (.val (pre ++ [.getAttr k])), false, state)))
  | .val pre, .getItem k =>
    (match getValueForOps state pre with
     | .error e => .error e
     | .ok obj =>
       (match getitemVal obj k with
        | .error e => .error e
        | .ok .pynone => .ok (none, false, state)
        | .ok _ => .ok (some (.val (pre ++ [.getItem k])), false, state)))
  | .val pre, .setAttr k v =>
    (match getValueForOps state pre with
     | .error e => .error e
     | .ok obj =>
       (match SetAttr.execute k v obj with
        | .error e => .error e
        | .ok (obj', changed) =>
          if changed then
            (match modifyAt state pre (fun _ => .ok obj') with
             | .ok state' => .ok (none, true, state')
             | .error e => .error e)
          else .ok (none, false, state)))
  | .val pre, .setItem k v =>
    (match getValueForOps state pre with
     | .error e => .error e
     | .ok obj =>
       (match SetItem.execute k v obj with
        | .error e => .error e
        | .ok (obj', changed) =>
          if changed then
            (match modifyAt state pre (fun _ => .ok obj') with
             | .ok state' => .ok (none, true, state')
             | .error e => .error e)
          else .ok (none, false, state)))
  | .val _, .call _ => .error .typeError
  | .meth m pre, .call args =>
    (match getValueForOps state pre with
     | .error e => .error e
     | .ok self =>
       (match applyMeth m args self with
        | .error e => .error e
        | .ok self' =>
          (match modifyAt state pre (fun _ => .ok self') with
           | .ok state' => .ok (none, true, state')
           | .error e => .error e)))
  | .meth _ _, _ => .error .attrError

/-- Accumulator of `_update_state`'s execute loop: the mutated state,
the current object, the operations of the statement in progress, and
the retained (changed) statements in completion order. -/
structure ExecAcc where
  state : Val
  cur : Cur
  currStmt : List Op
  stmts : List (List Op)

/-- Loop entry: the current object starts at the state root. -/
def initAcc (state : Val) : ExecAcc := ⟨state, .val [], [], []⟩

/-- The statement-segmentation loop of `Model._update_state` (lines
180-191): execute each op; when an op returns `None` the statement is
complete and is retained only if it reported a change, and the current
object resets to the state root. -/
def execOps : ExecAcc → List Op → Except Err ExecAcc
  | acc, [] => .ok acc
  | acc, op :: rest =>
    (match execOp acc.state acc.cur op with
     | .error e => .error e
     | .ok (res, changed, st') =>
       (match res with
        | some cur' => execOps ⟨st', cur', acc.currStmt ++ [op], acc.stmts⟩ rest
        | none => execOps ⟨st', .val [], [],
            if changed then acc.stmts ++ [acc.currStmt ++ [op]] else acc.stmts⟩ rest))

/-- A node of the notification trie (`Node` dataclass): the operation
used to reach it (`None` only at the root) and its children keyed by
operation key in insertion order.  A node's channel is identified by
its position, the list of keys from the root. -/
inductive Node where
  | mk : Option Op → List (Key × Node) → Node
deriving Repr

/-- The `op` field of a `Node`. -/
def Node.op : Node → Option Op
  | .mk o _ => o

/-- The `children` field of a `Node`. -/
def Node.children : Node → List (Key × Node)
  | .mk _ cs => cs

/-- A fresh trie root (`Node()`). -/
def emptyNode : Node := .mk none []

/-- First-match lookup among a node's children. -/
def assocFindNode : List (Key × Node) → Key → Option Node
  | [], _ => none
  | (k, c) :: rest, key => if k = key then some c else assocFindNode rest key

/-- Replace the child under a key in place, or append a new child at the
end (`defaultdict` insertion order). -/
def assocSetNode : List (Key × Node) → Key → Node → List (Key × Node)
  | [], key, c => [(key, c)]
  | (k, c0) :: rest, key, c =>
    if k = key then (k, c) :: rest else (k, c0) :: assocSetNode rest key c

/-- The source's `Model.__get_node_for_ops`: walk/create a child per operation key,
storing each traversed operation as that node's `op`.  Returns the
updated trie (the resolved node sits at position `ops.map Op.key`). -/
def getNodeForOps : Node → List Op → Node
  | t, [] => t
  | .mk o cs, op :: rest =>
    let child := match assocFindNode cs op.key with
      | some (.mk _ gcs) => Node.mk (some op) gcs
      | none => Node.mk (some op) []
    Node.mk o (assocSetNode cs op.key (getNodeForOps child rest))

/-- Look a node up by its key path, without creating anything. -/
def nodeAtKeys : Node → List Key → Option Node
  | t, [] => some t
  | .mk _ cs, k :: rest =>
    (match assocFindNode cs k with
     | some c => nodeAtKeys c rest
     | none => none)

/-- The ordered list of keys of an operation sequence. -/
def opsKeys (ops : List Op) : List Key := ops.map Op.key

/-- One channel emission: the emitting node's key path and the payload. -/
abbrev Emission := List Key × Val

mutual
/-- The source's `Model.__fire_all_child_events`: for every child, re-derive its
value from the parent value via its stored operation; on success emit
and recurse, on any exception (including the `op is not None`
assertion) skip the branch silently. -/
def fireAllChildEvents : Node → List Key → Val → List Emission
  | .mk _ cs, path, parent => fireChildList cs path parent

def fireChildList : List (Key × Node) → List Key → Val → List Emission
  | [], _, _ => []
  | (k, c) :: rest, path, parent =>
    (match c.op with
     | none => []
     | some op =>
       (match getValueOp op parent with
        | .error _ => []
        | .ok v => (path ++ [k], v) :: fireAllChildEvents c (path ++ [k]) v))
    ++ fireChildList rest path parent
end

/-- The per-statement emission loop of `_update_state` (lines 220-225):
walk the statement prefix by prefix, resolving the node and recomputing
the value at each prefix against the updated state, and emit.  Returns
the updated trie, the emissions, and the final node's path and value
(the loop's last `node`/`value`, used for the cascade). -/
def emitStmtGo (st : Val) (t : Node) (curr : List Op) :
    List Op → Except Err (Node × List Emission × List Key × Val)
  | [] => .error .assertionError
  | [op] =>
    let curr' := curr ++ [op]
    let t' := getNodeForOps t curr'
    (match getValueForOps st curr' with
     | .error e => .error e
     | .ok v => .ok (t', [(opsKeys curr', v)], opsKeys curr', v))
  | op :: rest =>
    let curr' := curr ++ [op]
    let t' := getNodeForOps t curr'
    (match getValueForOps st curr' with
     | .error e => .error e
     | .ok v =>
       (match emitStmtGo st t' curr' rest with
        | .error e => .error e
        | .ok (t'', es, p, lastV) => .ok (t'', (opsKeys curr', v) :: es, p, lastV)))

/-- Emissions of one retained statement: the prefix emissions followed
by the descendant cascade rooted at the statement's final node. -/
def emitStmt (st : Val) (t : Node) (stmt : List Op) :
    Except Err (Node × List Emission) :=
  match emitStmtGo st t [] stmt with
  | .error e => .error e
  | .ok (t', es, p, v) =>
    let cascade := match nodeAtKeys t' p with
      | some n => fireAllChildEvents n p v
      | none => []
    .ok (t', es ++ cascade)

/-- Emissions of the retained statements, in completion order. -/
def emitStmts (st : Val) : Node → List (List Op) → Except Err (Node × List Emission)
  | t, [] => .ok (t, [])
  | t, stmt :: rest =>
    (match emitStmt st t stmt with
     | .error e => .error e
     | .ok (t', es) =>
       (match emitStmts st t' rest with
        | .error e => .error e
        | .ok (t'', es') => .ok (t'', es ++ es')))

/-- A `Model`: the current state and the notification trie root. -/
structure SModel where
  state : Val
  root : Node
deriving Repr

/-- The source's `Model._update_state` applied to an already-recorded operation
sequence, with the identity submodel root (`Model.update_state`; for
the identity root the "actual root to submodel root" loop at lines
204-212 records no operations and emits nothing): execute and segment
the ops, assert the last statement was completed by a write/invoke,
return silently if no statement changed anything, otherwise emit the
root channel first and then each retained statement's prefix chain and
descendant cascade. -/
def updateStateOps (m : SModel) (ops : List Op) :
    Except Err (SModel × List Emission) :=
  match execOps (initAcc m.state) ops with
  | .error e => .error e
  | .ok acc =>
    (match acc.currStmt with
     | _ :: _ => .error .assertionError
     | [] =>
       (match acc.stmts with
        | [] => .ok (⟨acc.state, m.root⟩, [])
        | stmts =>
          (match emitStmts acc.state m.root stmts with
           | .error e => .error e
           | .ok (t', es) => .ok (⟨acc.state, t'⟩, ([], acc.state) :: es))))

/-- The source's `Model.observe_property` applied to the recorded ops of the path
function: resolve (and thereby create) the node, connect the callback,
then try to compute the current value and invoke the callback with it
once; any exception there is caught and logged, never propagated, and
the subscription stays connected.  Returns the updated model and the
payload of the initial synchronous callback invocation, if it was made. -/
def observeProperty (m : SModel) (ops : List Op) : SModel × Option Val :=
  let t' := getNodeForOps m.root ops
  match getValueForOps m.state ops with
  | .ok v => (⟨m.state, t'⟩, some v)
  | .error _ => (⟨m.state, t'⟩, none)

/-- The source's `Model.snapshot_property`: apply the path function to the real state
(a pure read chain replays `get_value`) and deep-copy the result (deep
copy is the identity under value semantics). -/
def snapshotProperty (m : SModel) (ops : List Op) : Except Err Val :=
  getValueForOps m.state ops

/-- The source's `Model.restore_property` lines 153-158: assert the recorded ops are
nonempty, and rewrite the final `GetAttr`/`GetItem` in place into a
`SetAttr`/`SetItem` carrying the snapshot (assertion failure otherwise). -/
def rewriteLast (ops : List Op) (snapshot : Val) : Except Err (List Op) :=
  match ops.getLast? with
  | Option.none => .error .assertionError
  | some (.getAttr k) => .ok (ops.dropLast ++ [.setAttr k snapshot])
  | some (.getItem k) => .ok (ops.dropLast ++ [.setItem k snapshot])
  | some _ => .error .assertionError

/-- The `update` closure of `restore_property` (lines 160-163) as run by
`update_state` against a fresh `Proxy`: each `execute_raw` call on the
proxy only re-records the operation (`Proxy.__getattr__` etc.) and
returns the proxy again, or `None` for a write/invoke; member access on
`None` raises. -/
def recordExecuteRaw : Bool → List Op → List Op → Except Err (List Op)
  | _, acc, [] => .ok acc
  | true, acc, op :: rest =>
    (match op with
     | .getAttr k => recordExecuteRaw true (acc ++ [.getAttr k]) rest
     | .getItem k => recordExecuteRaw true (acc ++ [.getItem k]) rest
     | .setAttr k v => recordExecuteRaw false (acc ++ [.setAttr k v]) rest
     | .setItem k v => recordExecuteRaw false (acc ++ [.setItem k v]) rest
     | .call args => recordExecuteRaw false (acc ++ [.call args]) rest)
  | false, _, op :: _ =>
    (match op with
     | .getAttr _ => .error .attrError
     | .setAttr _ _ => .error .attrError
     | _ => .error .typeError)

/-- The source's `Model.restore_property`: rewrite the final read into a write
carrying the snapshot, then hand the closure that replays the ops with
`execute_raw` to `update_state` — which runs it against a `Proxy`, so
the replay merely re-records the ops and the actual application goes
through the ordinary `_update_state` transaction (with change
detection). -/
def restoreProperty (m : SModel) (ops : List Op) (snapshot : Val) :
    Except Err (SModel × List Emission) :=
  match rewriteLast ops snapshot with
  | .error e => .error e
  | .ok ops' =>
    (match recordExecuteRaw true [] ops' with
     | .error e => .error e
     | .ok recorded => updateStateOps m recorded)

/-- The source's `Model.restore` (whole-state restore, no path): replace the state
with a deep copy of the snapshot and fire every reachable child event
over the new state (the root node's own channel is not emitted). -/
def restore (m : SModel) (snapshot : Val) : SModel × List Emission :=
  (⟨snapshot, m.root⟩, fireAllChildEvents m.root [] snapshot)

/-- A pure read chain, the shape of a projection path function
(`lambda s: s.a[i].b` style).  Running it against a `Proxy` records one
`GetAttr`/`GetItem` per step and returns the proxy. -/
inductive PathChain where
  | here : PathChain
  | attr : String → PathChain → PathChain
  | item : Key → PathChain → PathChain

/-- Recording semantics of a read chain against a `Proxy` that has
already accumulated `acc`: each step appends its read operation. -/
def recordChain : PathChain → List Op → List Op
  | .here, acc => acc
  | .attr k r, acc => recordChain r (acc ++ [.getAttr k])
  | .item k r, acc => recordChain r (acc ++ [.getItem k])

/-- The operation sequence a read chain records on a fresh `Proxy`. -/
def chainOps (c : PathChain) : List Op := recordChain c []

/-- Function composition of read chains: `fun s => p (proj s)` as a
chain (apply `proj`, then continue with `p`). -/
def chainComp : PathChain → PathChain → PathChain
  | .here, p => p
  | .attr k r, p => .attr k (chainComp r p)
  | .item k r, p => .item k (chainComp r p)

/-- A model handle as user code sees it: either the root `Model` or a
`_SubModel` wrapping a parent handle and a projection path function
(`Model.submodel` / `_SubModel.submodel` produce exactly these). -/
inductive MP where
  | root : SModel → MP
  | sub : MP → PathChain → MP

/-- The root `Model` a handle ultimately delegates to. -/
def MP.rootModel : MP → SModel
  | .root m => m
  | .sub par _ => par.rootModel

/-- The composed projection from the root state to the handle's state. -/
def MP.proj : MP → PathChain
  | .root _ => .here
  | .sub par pr => chainComp par.proj pr

/-- The source's `observe_property` on a handle: a `_SubModel` builds the composed
path function `fun s => p (root_property s)` and delegates to its
parent unchanged. -/
def MP.observeP : MP → PathChain → SModel × Option Val
  | .root m, p => observeProperty m (chainOps p)
  | .sub par pr, p => par.observeP (chainComp pr p)

/-- The source's `update_state` on a handle, taking the operations the caller's
update function records after the projection: a `_SubModel` delegates
`fun s => func (root_property s)`, whose recording is the projection's
ops followed by the function's ops. -/
def MP.updateP : MP → List Op → Except Err (SModel × List Emission)
  | .root m, fops => updateStateOps m fops
  | .sub par pr, fops => par.updateP (chainOps pr ++ fops)

/-- The source's `snapshot_property` on a handle. -/
def MP.snapshotP : MP → PathChain → Except Err Val
  | .root m, p => snapshotProperty m (chainOps p)
  | .sub par pr, p => par.snapshotP (chainComp pr p)

/-- The source's `restore_property` on a handle. -/
def MP.restoreP : MP → PathChain → Val → Except Err (SModel × List Emission)
  | .root m, p, snap => restoreProperty m (chainOps p) snap
  | .sub par pr, p, snap => par.restoreP (chainComp pr p) snap

/-- The source's `submodel` on a handle: both `Model.submodel` and
`_SubModel.submodel` just wrap the receiver with the projection. -/
def MP.submodel (mp : MP) (p : PathChain) : MP := .sub mp p

/-! ### Helper lemmas about the notification trie -/

theorem assocFindNode_assocSetNode_self (cs : List (Key × Node)) (k : Key) (c : Node) :
    assocFindNode (assocSetNode cs k c) k = some c := by
  induction cs with
  | nil => simp [assocSetNode, assocFindNode]
  | cons hd rest ih =>
    obtain ⟨k0, c0⟩ := hd
    by_cases h : k0 = k
    · subst h; simp [assocSetNode, assocFindNode]
    · simp [assocSetNode, assocFindNode, h, ih]

theorem assocFindNode_assocSetNode_ne (cs : List (Key × Node)) (k k' : Key) (c : Node)
    (h : k' ≠ k) : assocFindNode (assocSetNode cs k c) k' = assocFindNode cs k' := by
  induction cs with
  | nil =>
    simp only [assocSetNode, assocFindNode]
    rw [if_neg (fun hc => h hc.symm)]
  | cons hd rest ih =>
    obtain ⟨k0, c0⟩ := hd
    by_cases h0 : k0 = k
    · subst h0
      have hne : ¬(k0 = k') := fun hc => h (hc ▸ rfl)
      simp [assocSetNode, assocFindNode, hne]
    · by_cases h1 : k0 = k'
      · subst h1; simp [assocSetNode, assocFindNode, h0]
      · simp [assocSetNode, assocFindNode, h0, h1, ih]

theorem nodeAtKeys_isSome_op (o1 o2 : Option Op) (cs : List (Key × Node)) (p : List Key) :
    (nodeAtKeys (.mk o1 cs) p).isSome = (nodeAtKeys (.mk o2 cs) p).isSome := by
  cases p <;> simp [nodeAtKeys]

theorem nodeAtKeys_leaf (o : Option Op) (p : List Key) :
    (nodeAtKeys (.mk o []) p).isSome = true ↔ p = [] := by
  cases p <;> simp [nodeAtKeys, assocFindNode]

theorem getNodeForOps_nil (t : Node) : getNodeForOps t [] = t := by
  cases t; rfl

theorem getNodeForOps_cons (o : Option Op) (cs : List (Key × Node)) (op : Op)
    (rest : List Op) :
    getNodeForOps (.mk o cs) (op :: rest) =
      Node.mk o (assocSetNode cs op.key (getNodeForOps
        (match assocFindNode cs op.key with
         | some (.mk _ gcs) => Node.mk (some op) gcs
         | none => Node.mk (some op) []) rest)) := rfl

theorem nodeAtKeys_cons (o : Option Op) (cs : List (Key × Node)) (k : Key)
    (rest : List Key) :
    nodeAtKeys (.mk o cs) (k :: rest) =
      (match assocFindNode cs k with
       | some c => nodeAtKeys c rest
       | none => none) := rfl

/-- Core trie invariant: resolving an operation sequence creates exactly
the nodes at the (payload-independent) key prefixes of the sequence and
preserves every node that already existed. -/
theorem nodeAt_getNodeForOps_iff : ∀ (ops : List Op) (t : Node) (p : List Key),
    (nodeAtKeys (getNodeForOps t ops) p).isSome = true ↔
      ((nodeAtKeys t p).isSome = true ∨ ∃ suffix, opsKeys ops = p ++ suffix) := by
  intro ops
  induction ops with
  | nil =>
    intro t p
    rw [getNodeForOps_nil]
    constructor
    · intro h; exact Or.inl h
    · rintro (h | ⟨suffix, hs⟩)
      · exact h
      · have hp : p = [] := by
          cases p with
          | nil => rfl
          | cons a as => simp [opsKeys] at hs
        subst hp; simp [nodeAtKeys]
  | cons op rest ih =>
    intro t p
    obtain ⟨o, cs⟩ := t
    have hkeys : opsKeys (op :: rest) = op.key :: opsKeys rest := by
      simp [opsKeys]
    cases p with
    | nil =>
      simp [nodeAtKeys]
    | cons k p' =>
      rw [getNodeForOps_cons, nodeAtKeys_cons, nodeAtKeys_cons]
      by_cases hk : k = op.key
      · subst hk
        rw [assocFindNode_assocSetNode_self]
        cases hfind : assocFindNode cs op.key with
        | some c0 =>
          obtain ⟨o0, gcs⟩ := c0
          simp only [hfind]
          rw [ih, nodeAtKeys_isSome_op (some op) o0 gcs p']
          simp only [hkeys, List.cons_append, List.cons.injEq, true_and]
        | none =>
          simp only [hfind]
          rw [ih, nodeAtKeys_leaf]
          simp only [hkeys, List.cons_append, List.cons.injEq, true_and,
            Option.isSome_none]
          constructor
          · rintro (h | h)
            · subst h; exact Or.inr ⟨opsKeys rest, rfl⟩
            · exact Or.inr h
          · rintro (h | h)
            · simp at h
            · exact Or.inr h
      · rw [assocFindNode_assocSetNode_ne _ _ _ _ hk]
        simp only [hkeys, List.cons_append, List.cons.injEq]
        constructor
        · intro h; exact Or.inl h
        · rintro (h | ⟨s, h1, h2⟩)
          · exact h
          · exact absurd h1.symm hk

/-- The node an operation sequence resolves to always exists afterwards. -/
theorem nodeAt_getNodeForOps_self (t : Node) (ops : List Op) :
    (nodeAtKeys (getNodeForOps t ops) (opsKeys ops)).isSome = true := by
  rw [nodeAt_getNodeForOps_iff]
  exact Or.inr ⟨[], by simp⟩

/-! ### Helper lemmas about the execute loop -/

/-- A step that reports no change leaves the state untouched (writes are
performed only under the `changed` flag). -/
theorem execOp_unchanged (st : Val) (cur : Cur) (op : Op) (res : Option Cur) (st' : Val)
    (h : execOp st cur op = .ok (res, false, st')) : st' = st := by
  cases cur <;> cases op <;> simp only [execOp] at h <;>
    (try split at h) <;> (try split at h) <;> (try split at h) <;> (try split at h) <;>
    simp_all

/-- A step that continues the statement (returns a next object) is a
read: it reports no change and leaves the state untouched. -/
theorem execOp_some (st : Val) (cur : Cur) (op : Op) (c : Cur) (ch : Bool) (st' : Val)
    (h : execOp st cur op = .ok (some c, ch, st')) : ch = false ∧ st' = st := by
  cases cur <;> cases op <;> simp only [execOp] at h <;>
    (try split at h) <;> (try split at h) <;> (try split at h) <;> (try split at h) <;>
    simp_all

/-- A successfully executed bare read reports no change and leaves the
state untouched, whether it continues the statement or — when the value
it read is `None` — ends it. -/
theorem execOp_read_step (st : Val) (cur : Cur) (op : Op) (res : Option Cur) (ch : Bool)
    (st' : Val) (hread : op.isRead = true)
    (h : execOp st cur op = .ok (res, ch, st')) : ch = false ∧ st' = st := by
  cases cur <;> cases op <;> simp only [Op.isRead] at hread <;>
    simp only [execOp] at h <;>
    (try split at h) <;> (try split at h) <;> (try split at h) <;> (try split at h) <;>
    simp_all

/-- A step that reports a change ends the statement. -/
theorem execOp_changed_none (st : Val) (cur : Cur) (op : Op) (res : Option Cur)
    (st' : Val) (h : execOp st cur op = .ok (res, true, st')) : res = none := by
  cases cur <;> cases op <;> simp only [execOp] at h <;>
    (try split at h) <;> (try split at h) <;> (try split at h) <;> (try split at h) <;>
    simp_all

theorem execOps_append (l r : List Op) : ∀ (a : ExecAcc),
    execOps a (l ++ r) =
      (match execOps a l with
       | .ok acc => execOps acc r
       | .error e => .error e) := by
  induction l with
  | nil => intro a; rfl
  | cons op rest ih =>
    intro a
    cases hop : execOp a.state a.cur op with
    | error e => simp only [List.cons_append, execOps, hop]
    | ok out =>
      obtain ⟨res, ch, st'⟩ := out
      cases res with
      | none => simp only [List.cons_append, execOps, hop]; exact ih _
      | some cur' => simp only [List.cons_append, execOps, hop]; exact ih _

/-- The retained-statement list only grows along the loop. -/
theorem execOps_stmts_grow (l : List Op) : ∀ (a acc : ExecAcc),
    execOps a l = .ok acc → ∃ ds, acc.stmts = a.stmts ++ ds := by
  induction l with
  | nil =>
    intro a acc h
    simp only [execOps] at h
    injection h with h
    exact ⟨[], by simp [h]⟩
  | cons op rest ih =>
    intro a acc h
    simp only [execOps] at h
    cases hop : execOp a.state a.cur op with
    | error e => rw [hop] at h; cases h
    | ok out =>
      obtain ⟨res, ch, st'⟩ := out
      rw [hop] at h
      dsimp only at h
      cases res with
      | some cur' =>
        dsimp only at h
        obtain ⟨ds, hds⟩ := ih ⟨st', cur', a.currStmt ++ [op], a.stmts⟩ acc h
        exact ⟨ds, hds⟩
      | none =>
        dsimp only at h
        split at h
        · obtain ⟨ds, hds⟩ :=
            ih ⟨st', .val [], [], a.stmts ++ [a.currStmt ++ [op]]⟩ acc h
          dsimp only at hds
          exact ⟨[a.currStmt ++ [op]] ++ ds, by simpa [List.append_assoc] using hds⟩
        · obtain ⟨ds, hds⟩ := ih ⟨st', .val [], [], a.stmts⟩ acc h
          exact ⟨ds, hds⟩

/-- If the loop retains no new statement, it performs no write: the
state comes out exactly as it went in. -/
theorem execOps_state_unchanged (l : List Op) : ∀ (a acc : ExecAcc),
    execOps a l = .ok acc → acc.stmts = a.stmts → acc.state = a.state := by
  induction l with
  | nil =>
    intro a acc h _
    simp only [execOps] at h
    injection h with h
    simp [h]
  | cons op rest ih =>
    intro a acc h hstmts
    simp only [execOps] at h
    cases hop : execOp a.state a.cur op with
    | error e => rw [hop] at h; cases h
    | ok out =>
      obtain ⟨res, ch, st'⟩ := out
      rw [hop] at h
      dsimp only at h
      cases res with
      | some cur' =>
        dsimp only at h
        obtain ⟨hch, hst⟩ := execOp_some _ _ _ _ _ _ hop
        have hrec := ih ⟨st', cur', a.currStmt ++ [op], a.stmts⟩ acc h hstmts
        rw [hrec, hst]
      | none =>
        dsimp only at h
        cases ch with
        | false =>
          rw [if_neg (by simp)] at h
          have hst : st' = a.state := execOp_unchanged _ _ _ _ _ hop
          have hrec := ih ⟨st', .val [], [], a.stmts⟩ acc h hstmts
          rw [hrec, hst]
        | true =>
          rw [if_pos rfl] at h
          obtain ⟨ds, hds⟩ :=
            execOps_stmts_grow rest ⟨st', .val [], [], a.stmts ++ [a.currStmt ++ [op]]⟩ acc h
          dsimp only at hds
          rw [hstmts] at hds
          exfalso
          have hlen := congrArg List.length hds
          simp only [List.length_append, List.length_cons, List.length_nil] at hlen
          omega

/-- Statements retained by the loop are never empty. -/
theorem execOps_stmts_nonempty (l : List Op) : ∀ (a acc : ExecAcc),
    execOps a l = .ok acc → (∀ s ∈ a.stmts, s ≠ []) → ∀ s ∈ acc.stmts, s ≠ [] := by
  induction l with
  | nil =>
    intro a acc h ha
    simp only [execOps] at h
    injection h with h
    rw [← h]
    exact ha
  | cons op rest ih =>
    intro a acc h ha
    simp only [execOps] at h
    cases hop : execOp a.state a.cur op with
    | error e => rw [hop] at h; cases h
    | ok out =>
      obtain ⟨res, ch, st'⟩ := out
      rw [hop] at h
      dsimp only at h
      cases res with
      | some cur' =>
        dsimp only at h
        exact ih ⟨st', cur', a.currStmt ++ [op], a.stmts⟩ acc h ha
      | none =>
        dsimp only at h
        cases ch with
        | false =>
          rw [if_neg (by simp)] at h
          exact ih ⟨st', .val [], [], a.stmts⟩ acc h ha
        | true =>
          rw [if_pos rfl] at h
          refine ih ⟨st', .val [], [], a.stmts ++ [a.currStmt ++ [op]]⟩ acc h ?_
          intro s hs
          rcases List.mem_append.mp hs with hm | hm
          · exact ha s hm
          · rcases List.mem_singleton.mp hm with rfl
            simp

/-! ### Concrete fixtures used by claim evaluations and witnesses -/

/-- The source's `AppState(a=1, b=B(c=2))`. -/
def exState : Val :=
  .record "AppState" [(.str "a", .int 1), (.str "b", .record "B" [(.str "c", .int 2)])]

/-- A fresh model over `exState`. -/
def exModel : SModel := ⟨exState, emptyNode⟩

/-- The source's `exModel` after `observe_property(lambda x: x.a, cb)`: the node for
`a` exists in the trie (a live subscription). -/
def exModelObs : SModel := (observeProperty exModel [.getAttr "a"]).1

/-- The source's `exState` with `a` set to `7`. -/
def exStateA7 : Val :=
  .record "AppState" [(.str "a", .int 7), (.str "b", .record "B" [(.str "c", .int 2)])]

/-- The source's `S(xs=[])`: a state holding an empty list. -/
def exListState : Val := .record "S" [(.str "xs", .list [])]

/-- A fresh model over `exListState`. -/
def exListModel : SModel := ⟨exListState, emptyNode⟩

/-- The source's `S(d=\x7b\x7d)`: a state holding an empty dict. -/
def exDictState : Val := .record "S" [(.str "d", .dict [])]

/-- A fresh model over `exDictState`. -/
def exDictModel : SModel := ⟨exDictState, emptyNode⟩

/-! ### Claim theorems -/

/-- C1: the claim says `restore(value, path)` rewrites the final read
into a write and applies it unconditionally via `execute_raw`, bypassing
change detection, so that `restore(snapshot(P), P)` still fires the
target node's channel and its cascade.  The code does rewrite the final
read into a write (`rewriteLast`), but the closure that replays the ops
with `execute_raw` is handed to `update_state`, which runs it against a
fresh `Proxy`: the `execute_raw` calls merely re-record the operations,
and the actual application goes through the ordinary `_update_state`
transaction with change detection.  Evaluating the code at the failing
input: restoring a just-taken snapshot (`a = 1` restored onto `a = 1`,
with a live subscription on `a`) emits nothing at all, while restoring a
different value (`7`) emits through the ordinary changed path.  This
contradicts the claim (and the evident intent of `execute_raw`, whose
only call site this is). -/
theorem restoreProperty_goes_through_change_detection :
    snapshotProperty exModelObs [.getAttr "a"] = .ok (.int 1) ∧
    restoreProperty exModelObs [.getAttr "a"] (.int 1) = .ok (exModelObs, []) ∧
    restoreProperty exModelObs [.getAttr "a"] (.int 7) =
      .ok (⟨exStateA7, .mk none [(.str "a", .mk (some (.setAttr "a" (.int 7))) [])]⟩,
           [([], exStateA7), ([.str "a"], .int 7)]) :=
  ⟨rfl, rfl, rfl⟩

/-- C3: an update in which no statement's final write or invoke produced
a change retains no statement, and `_update_state` then returns before
emitting anything: no channel fires (not even the root) and both the
state and the trie are left exactly as they were. -/
theorem update_no_change_is_noop (m : SModel) (ops : List Op) (acc : ExecAcc)
    (hexec : execOps (initAcc m.state) ops = .ok acc)
    (hcurr : acc.currStmt = []) (hstmts : acc.stmts = []) :
    updateStateOps m ops = .ok (m, []) := by
  have hst : acc.state = m.state :=
    execOps_state_unchanged ops (initAcc m.state) acc hexec (by rw [hstmts]; rfl)
  simp only [updateStateOps, hexec, hcurr, hstmts]
  rw [hst]

/-- Witness for C3 at a concrete input: writing `a = 1` when `a`
already equals `1` — the loop retains nothing, the update emits nothing
and returns the model unchanged. -/
theorem update_no_change_is_noop_witness :
    execOps (initAcc exModel.state) [Op.setAttr "a" (Val.int 1)] =
      .ok ⟨exModel.state, .val [], [], []⟩ ∧
    updateStateOps exModel [Op.setAttr "a" (Val.int 1)] = .ok (exModel, []) :=
  ⟨rfl, update_no_change_is_noop exModel [Op.setAttr "a" (Val.int 1)]
    ⟨exModel.state, .val [], [], []⟩ rfl rfl rfl⟩

/-- C5: a recorded `Call` that executes successfully always reports
`mutated = true` (first conjunct: `Call.execute` returns `obj(*args),
True` unconditionally), so the invoked field's path and its ancestors
are notified even when the call's effect is not observable as a value
change: invoking `clear()` on an already-empty list leaves the state
untouched yet fires the root channel, the `xs` channel, and the nodes
reached through the bound method (second conjunct, evaluated). -/
theorem invoke_always_reports_change :
    (∀ (st : Val) (cur : Cur) (args : List Val) (out : Option Cur × Bool × Val),
      execOp st cur (.call args) = .ok out → out.2.1 = true) ∧
    updateStateOps exListModel [.getAttr "xs", .getAttr "clear", .call []] =
      .ok (⟨exListState,
            .mk none [(.str "xs", .mk (some (.getAttr "xs"))
              [(.str "clear", .mk (some (.getAttr "clear"))
                [(.str "__call__", .mk (some (.call [])) [])])])]⟩,
           [([], exListState), ([.str "xs"], .list []),
            ([.str "xs", .str "clear"], .method .clear (.list [])),
            ([.str "xs", .str "clear", .str "__call__"], .method .clear (.list []))]) := by
  constructor
  · intro st cur args out h
    cases cur with
    | val pre => simp [execOp] at h
    | meth m pre =>
      simp only [execOp] at h
      (try split at h) <;> (try split at h) <;> (try split at h) <;>
        (try simp_all) <;> (subst h; rfl)
  · rfl

/-- Witness for C5: executing the recorded invoke of `clear` on the
empty `xs` list succeeds and its `changed` flag is `true`. -/
theorem invoke_always_reports_change_witness :
    execOp exListState (.meth .clear [.getAttr "xs"]) (.call []) =
      .ok (none, true, exListState) ∧
    ((none, true, exListState) : Option Cur × Bool × Val).2.1 = true :=
  ⟨rfl, invoke_always_reports_change.1 exListState (.meth .clear [.getAttr "xs"]) []
    (none, true, exListState) rfl⟩

/-- The state `S(f=None)`: a field holding Python `None`. -/
def exNoneState : Val := .record "S" [(.str "f", .pynone)]

/-- A fresh model over `exNoneState`. -/
def exNoneModel : SModel := ⟨exNoneState, emptyNode⟩

/-- C6 counterexample: the claim says every update whose path function
ends in a bare read fails fatally with the assertion.  But the loop
detects the end of a statement by `obj is None`, and a bare read of a
field whose value is `None` returns `None` as the next object: the read
is mistaken for a completed unchanged statement, `curr_stmt` is reset,
`assert not curr_stmt` passes, and the update silently no-ops —
`update(lambda x: x.f)` with `f = None` raises nothing. -/
theorem update_bare_read_of_none_silently_discarded :
    updateStateOps exNoneModel [.getAttr "f"] = .ok (exNoneModel, []) ∧
    updateStateOps exNoneModel [.getAttr "f"] ≠ .error .assertionError := by
  constructor
  · rfl
  · intro h
    rw [show updateStateOps exNoneModel [.getAttr "f"] = .ok (exNoneModel, []) from rfl] at h
    cases h

/-- C6 (amended): a bare trailing read never reports a change and never
mutates the state (first conjunct).  If the read produced a value other
than `None`, it continues the statement, the loop finishes with a
nonempty `curr_stmt`, and `_update_state` fails on `assert not
curr_stmt` before any emission code runs — `AssertionError`, nothing
emitted (second conjunct).  If the read produced `None`, the `obj is
None` check mistakes it for a completed unchanged statement: the
statement is silently discarded — no assertion, no retained statement,
state unchanged (third conjunct). -/
theorem update_trailing_read_assert_or_silent_drop (m : SModel) (l : List Op) (op : Op)
    (hread : op.isRead = true) (acc0 : ExecAcc)
    (h0 : execOps (initAcc m.state) l = .ok acc0)
    (res : Option Cur) (ch : Bool) (st' : Val)
    (hstep : execOp acc0.state acc0.cur op = .ok (res, ch, st')) :
    (ch = false ∧ st' = acc0.state) ∧
    (∀ c, res = some c → updateStateOps m (l ++ [op]) = .error .assertionError) ∧
    (res = none →
      execOps (initAcc m.state) (l ++ [op]) = .ok ⟨acc0.state, .val [], [], acc0.stmts⟩) := by
  obtain ⟨hch, hst⟩ := execOp_read_step _ _ _ _ _ _ hread hstep
  subst hch
  subst hst
  have hsplit := execOps_append l [op] (initAcc m.state)
  rw [h0] at hsplit
  dsimp only at hsplit
  refine ⟨⟨rfl, rfl⟩, ?_, ?_⟩
  · intro c hc
    subst hc
    have hfin : execOps (initAcc m.state) (l ++ [op]) =
        .ok ⟨acc0.state, c, acc0.currStmt ++ [op], acc0.stmts⟩ := by
      rw [hsplit]
      simp only [execOps]
      rw [hstep]
    cases hcs0 : acc0.currStmt with
    | nil =>
      rw [hcs0] at hfin
      simp only [List.nil_append] at hfin
      simp only [updateStateOps, hfin]
    | cons x xs =>
      rw [hcs0] at hfin
      simp only [List.cons_append] at hfin
      simp only [updateStateOps, hfin]
  · intro hn
    subst hn
    rw [hsplit]
    simp only [execOps]
    rw [hstep]
    simp

/-- Witness for C6 (amended) at both concrete inputs: a bare read of a
non-`None` field (`a = 1`) aborts with the assertion, while a bare read
of a `None`-valued field is silently discarded by the loop. -/
theorem update_trailing_read_assert_or_silent_drop_witness :
    updateStateOps exModel ([] ++ [Op.getAttr "a"]) = .error .assertionError ∧
    execOps (initAcc exNoneModel.state) ([] ++ [Op.getAttr "f"]) =
      .ok ⟨exNoneModel.state, .val [], [], []⟩ :=
  ⟨(update_trailing_read_assert_or_silent_drop exModel [] (Op.getAttr "a") rfl
      (initAcc exModel.state) rfl (some (.val [Op.getAttr "a"])) false exModel.state
      rfl).2.1 (.val [Op.getAttr "a"]) rfl,
   (update_trailing_read_assert_or_silent_drop exNoneModel [] (Op.getAttr "f") rfl
      (initAcc exNoneModel.state) rfl none false exNoneModel.state rfl).2.2 rfl⟩

/-- C7: `observe_property` resolves (and creates) the node before
anything else, connects the callback, and then invokes it synchronously
exactly once with the current value at the path; if computing that
value throws, the exception is swallowed (the function is total — it
returns instead of propagating, the callback is invoked zero times) and
the subscription is still established: the node at the path's keys
exists in the updated trie, so later emissions on that channel reach
the callback. -/
theorem observe_initial_callback_and_subscription (m : SModel) (ops : List Op) :
    (observeProperty m ops).1.state = m.state ∧
    (observeProperty m ops).1.root = getNodeForOps m.root ops ∧
    (observeProperty m ops).2 = (getValueForOps m.state ops).toOption ∧
    (nodeAtKeys (observeProperty m ops).1.root (opsKeys ops)).isSome = true := by
  refine ⟨?_, ?_, ?_, ?_⟩ <;>
    simp only [observeProperty] <;>
    cases h : getValueForOps m.state ops <;>
    simp [Except.toOption, nodeAt_getNodeForOps_self]

/-- C9: a node's trie position is determined by the ordered key list
alone.  Resolving an operation sequence (i) creates exactly the nodes
at the key prefixes of the sequence — lazy creation, payload values
ignored — while (ii) preserving every node that already existed (nodes
are never removed), (iii) the resolved node itself exists at the
sequence's key path afterwards, and (iv) two sequences with the same
ordered keys produce tries whose nodes exist at exactly the same
positions, hence resolve to the same node/channel. -/
theorem trie_unique_lazy_persistent_nodes (t : Node) (ops1 ops2 : List Op) (p : List Key) :
    ((nodeAtKeys (getNodeForOps t ops1) p).isSome = true ↔
      ((nodeAtKeys t p).isSome = true ∨ ∃ suffix, opsKeys ops1 = p ++ suffix)) ∧
    ((nodeAtKeys t p).isSome = true →
      (nodeAtKeys (getNodeForOps t ops1) p).isSome = true) ∧
    (nodeAtKeys (getNodeForOps t ops1) (opsKeys ops1)).isSome = true ∧
    (opsKeys ops1 = opsKeys ops2 →
      ((nodeAtKeys (getNodeForOps t ops1) p).isSome = true ↔
        (nodeAtKeys (getNodeForOps t ops2) p).isSome = true)) := by
  refine ⟨nodeAt_getNodeForOps_iff ops1 t p, ?_, nodeAt_getNodeForOps_self t ops1, ?_⟩
  · intro h
    rw [nodeAt_getNodeForOps_iff]
    exact Or.inl h
  · intro hkeys
    rw [nodeAt_getNodeForOps_iff, nodeAt_getNodeForOps_iff, hkeys]

/-- C10: a `SetItem` write whose key is missing from the target mapping
reads `KeyError`, which `SetItem.execute` catches and turns into
`changed = true`: the value is stored under the key (first conjunct),
and the statement is retained so its path and ancestors are notified
(third conjunct, evaluated: root, `d`, then `d["k"]`).  No such catch
exists for sequences: an out-of-range index propagates `IndexError`
(second conjunct). -/
theorem setitem_keyerror_treated_as_change :
    (∀ (es : List (Key × Val)) (k : Key) (v : Val), lookupKey es k = none →
      SetItem.execute k v (.dict es) = .ok (.dict (assocSetKey es k v), true)) ∧
    (∀ (xs : List Val) (i : Int) (v : Val), pyIndex xs.length i = none →
      SetItem.execute (.int i) v (.list xs) = .error .indexError) ∧
    updateStateOps exDictModel [.getAttr "d", .setItem (.str "k") (.int 3)] =
      .ok (⟨.record "S" [(.str "d", .dict [(.str "k", .int 3)])],
            .mk none [(.str "d", .mk (some (.getAttr "d"))
              [(.str "k", .mk (some (.setItem (.str "k") (.int 3))) [])])]⟩,
           [([], .record "S" [(.str "d", .dict [(.str "k", .int 3)])]),
            ([.str "d"], .dict [(.str "k", .int 3)]),
            ([.str "d", .str "k"], .int 3)]) := by
  refine ⟨?_, ?_, rfl⟩
  · intro es k v h
    simp [SetItem.execute, getitemVal, setitemRaw, h]
  · intro xs i v h
    simp only [SetItem.execute, getitemVal, h]

/-- Witness for C10: storing under a key absent from an empty dict
reports a change and inserts; writing index 0 of an empty list raises
`IndexError`. -/
theorem setitem_keyerror_treated_as_change_witness :
    SetItem.execute (.str "k") (.int 3) (.dict []) =
      .ok (.dict [(.str "k", .int 3)], true) ∧
    SetItem.execute (.int 0) (.int 3) (.list []) = .error .indexError :=
  ⟨setitem_keyerror_treated_as_change.1 [] (.str "k") (.int 3) rfl,
   setitem_keyerror_treated_as_change.2.1 [] 0 (.int 3) rfl⟩

/-- Reading an item successfully means writing at the same key cannot
fail (`obj[key] = value` succeeds on lists in range and on dicts). -/
theorem setitemRaw_ok_of_getitemVal (obj : Val) (k : Key) (curr v : Val)
    (h : getitemVal obj k = .ok curr) : ∃ obj', setitemRaw obj k v = .ok obj' := by
  cases obj with
  | list xs =>
    cases k with
    | int i =>
      simp only [getitemVal] at h
      cases hp : pyIndex xs.length i with
      | none => rw [hp] at h; cases h
      | some n => exact ⟨.list (xs.set n v), by simp [setitemRaw, hp]⟩
    | str s => simp only [getitemVal] at h; cases h
  | dict es =>
    refine ⟨.dict (assocSetKey es k v), ?_⟩
    cases k <;> rfl
  | pynone => simp only [getitemVal] at h; cases h
  | int n => simp only [getitemVal] at h; cases h
  | float f => simp only [getitemVal] at h; cases h
  | str s0 => simp only [getitemVal] at h; cases h
  | record c fs => simp only [getitemVal] at h; cases h
  | method mn sv => simp only [getitemVal] at h; cases h

/-- C4 counterexample: the claim says a NaN-to-non-NaN assignment is
always treated as a change and notifies.  But when the current value is
NaN, `SetAttr.execute` evaluates `math.isnan(self.value)` on the new
value, which raises `TypeError` for a non-numeric value: assigning the
string `"s"` over a NaN field raises out of the whole update instead of
notifying. -/
theorem setattr_nan_to_string_raises :
    SetAttr.execute "x" (.str "s") (.record "S" [(.str "x", .float .nan)]) =
      .error .typeError ∧
    (∀ r : Val × Bool,
      SetAttr.execute "x" (.str "s") (.record "S" [(.str "x", .float .nan)]) ≠ .ok r) ∧
    updateStateOps ⟨.record "S" [(.str "x", .float .nan)], emptyNode⟩
      [.setAttr "x" (.str "s")] = .error .typeError := by
  refine ⟨rfl, ?_, rfl⟩
  intro r h
  rw [show SetAttr.execute "x" (.str "s") (.record "S" [(.str "x", .float .nan)]) =
    .error .typeError from rfl] at h
  cases h

/-- C4 (amended): write change detection compares the current value at
the key with the new value by Python equality; when the current value
is a non-NaN the flag is exactly the disequality (first two conjuncts,
attribute and item writes), a NaN-to-NaN write is treated as unchanged
and performs no write (third and sixth conjuncts), and a NaN-to-numeric
or float-to-NaN write is always a change that is performed (fourth and
fifth conjuncts) — but a non-numeric value assigned over a NaN current
value raises `TypeError` (see the counterexample), so the "always
notifies" direction holds for numeric replacement values. -/
theorem write_change_detection_nan :
    (∀ (c : String) (fs : List (Key × Val)) (k : String) (v curr : Val),
      lookupKey fs (.str k) = some curr → curr.isNan = false →
      SetAttr.execute k v (.record c fs) =
        .ok (if pyEq curr v then (.record c fs, false)
             else (.record c (assocSetKey fs (.str k) v), true))) ∧
    (∀ (obj : Val) (k : Key) (v curr : Val),
      getitemVal obj k = .ok curr → curr.isNan = false →
      ∃ r, SetItem.execute k v obj = .ok r ∧ r.2 = !pyEq curr v) ∧
    (∀ (c : String) (fs : List (Key × Val)) (k : String),
      lookupKey fs (.str k) = some (.float .nan) →
      SetAttr.execute k (.float .nan) (.record c fs) = .ok (.record c fs, false)) ∧
    (∀ (c : String) (fs : List (Key × Val)) (k : String) (n : Int),
      lookupKey fs (.str k) = some (.float .nan) →
      SetAttr.execute k (.int n) (.record c fs) =
        .ok (.record c (assocSetKey fs (.str k) (.int n)), true) ∧
      SetAttr.execute k (.float (.fin n)) (.record c fs) =
        .ok (.record c (assocSetKey fs (.str k) (.float (.fin n))), true)) ∧
    (∀ (c : String) (fs : List (Key × Val)) (k : String) (q : Int),
      lookupKey fs (.str k) = some (.float (.fin q)) →
      SetAttr.execute k (.float .nan) (.record c fs) =
        .ok (.record c (assocSetKey fs (.str k) (.float .nan)), true)) ∧
    (∀ (obj : Val) (k : Key),
      getitemVal obj k = .ok (.float .nan) →
      SetItem.execute k (.float .nan) obj = .ok (obj, false)) := by
  refine ⟨?_, ?_, ?_, ?_, ?_, ?_⟩
  · intro c fs k v curr hl hnan
    simp only [SetAttr.execute, getattrVal, hl]
    by_cases hpq : pyEq curr v = true
    · simp [hpq]
    · rcases curr with _ | _ | f | _ | _ | _ | _ | _ <;>
        simp_all [Val.isFloat, setattrRaw]
  · intro obj k v curr hl hnan
    obtain ⟨obj', hraw⟩ := setitemRaw_ok_of_getitemVal obj k curr v hl
    simp only [SetItem.execute, hl]
    by_cases hpq : pyEq curr v = true
    · simp [hpq]
    · rcases curr with _ | _ | f | _ | _ | _ | _ | _ <;>
        (simp_all [Val.isFloat, hraw]; try exact ⟨_, rfl, rfl⟩)
  · intro c fs k hl
    simp only [SetAttr.execute, getattrVal, hl]
    rfl
  · intro c fs k n hl
    refine ⟨?_, ?_⟩ <;> (simp only [SetAttr.execute, getattrVal, hl]; rfl)
  · intro c fs k q hl
    simp only [SetAttr.execute, getattrVal, hl]
    rfl
  · intro obj k hl
    simp only [SetItem.execute, hl]
    rfl

/-- Witness for C4 (amended) at concrete inputs: on a field holding
`1`, writing `2` is a change and writing `1` is not; a NaN-to-NaN write
is unchanged. -/
theorem write_change_detection_nan_witness :
    SetAttr.execute "x" (.int 2) (.record "S" [(.str "x", .int 1)]) =
      .ok (.record "S" [(.str "x", .int 2)], true) ∧
    SetAttr.execute "x" (.int 1) (.record "S" [(.str "x", .int 1)]) =
      .ok (.record "S" [(.str "x", .int 1)], false) ∧
    SetAttr.execute "x" (.float .nan) (.record "S" [(.str "x", .float .nan)]) =
      .ok (.record "S" [(.str "x", .float .nan)], false) := by
  refine ⟨?_, ?_, ?_⟩
  · have h := write_change_detection_nan.1 "S" [(.str "x", .int 1)] "x" (.int 2) (.int 1)
      rfl rfl
    simpa using h
  · have h := write_change_detection_nan.1 "S" [(.str "x", .int 1)] "x" (.int 1) (.int 1)
      rfl rfl
    simpa using h
  · exact write_change_detection_nan.2.2.1 "S" [(.str "x", .float .nan)] "x" rfl

/-! ### Path-chain composition (SubModel) -/

theorem recordChain_eq_append (c : PathChain) : ∀ acc, recordChain c acc = acc ++ chainOps c := by
  induction c with
  | here => intro acc; simp [recordChain, chainOps]
  | attr k r ih =>
    intro acc
    simp only [recordChain, chainOps]
    rw [ih (acc ++ [Op.getAttr k]), ih ([] ++ [Op.getAttr k])]
    simp [List.append_assoc]
  | item k r ih =>
    intro acc
    simp only [recordChain, chainOps]
    rw [ih (acc ++ [Op.getItem k]), ih ([] ++ [Op.getItem k])]
    simp [List.append_assoc]

theorem chainOps_attr (k : String) (r : PathChain) :
    chainOps (.attr k r) = .getAttr k :: chainOps r := by
  show recordChain r ([] ++ [Op.getAttr k]) = Op.getAttr k :: chainOps r
  rw [recordChain_eq_append r ([] ++ [Op.getAttr k])]
  simp

theorem chainOps_item (k : Key) (r : PathChain) :
    chainOps (.item k r) = .getItem k :: chainOps r := by
  show recordChain r ([] ++ [Op.getItem k]) = Op.getItem k :: chainOps r
  rw [recordChain_eq_append r ([] ++ [Op.getItem k])]
  simp

/-- Running the composed path function `fun s => p2 (p1 s)` against a
recorder records `p1`'s operations followed by `p2`'s. -/
theorem chainOps_comp (c1 c2 : PathChain) :
    chainOps (chainComp c1 c2) = chainOps c1 ++ chainOps c2 := by
  induction c1 with
  | here => simp [chainComp, chainOps, recordChain]
  | attr k r ih => simp [chainComp, chainOps_attr, ih]
  | item k r ih => simp [chainComp, chainOps_item, ih]

theorem chainComp_assoc (a b c : PathChain) :
    chainComp (chainComp a b) c = chainComp a (chainComp b c) := by
  induction a with
  | here => rfl
  | attr k r ih => simp [chainComp, ih]
  | item k r ih => simp [chainComp, ih]

theorem MP_observeP_eq (mp : MP) : ∀ (p : PathChain),
    mp.observeP p = observeProperty mp.rootModel (chainOps (chainComp mp.proj p)) := by
  induction mp with
  | root m => intro p; rfl
  | sub par pr ih =>
    intro p
    simp only [MP.observeP, MP.rootModel, MP.proj]
    rw [ih, chainComp_assoc]

theorem MP_updateP_eq (mp : MP) : ∀ (fops : List Op),
    mp.updateP fops = updateStateOps mp.rootModel (chainOps mp.proj ++ fops) := by
  induction mp with
  | root m => intro fops; rfl
  | sub par pr ih =>
    intro fops
    simp only [MP.updateP, MP.rootModel, MP.proj]
    rw [ih, chainOps_comp, List.append_assoc]

theorem MP_snapshotP_eq (mp : MP) : ∀ (p : PathChain),
    mp.snapshotP p = snapshotProperty mp.rootModel (chainOps (chainComp mp.proj p)) := by
  induction mp with
  | root m => intro p; rfl
  | sub par pr ih =>
    intro p
    simp only [MP.snapshotP, MP.rootModel, MP.proj]
    rw [ih, chainComp_assoc]

theorem MP_restoreP_eq (mp : MP) : ∀ (p : PathChain) (snap : Val),
    mp.restoreP p snap = restoreProperty mp.rootModel (chainOps (chainComp mp.proj p)) snap := by
  induction mp with
  | root m => intro p snap; rfl
  | sub par pr ih =>
    intro p snap
    simp only [MP.restoreP, MP.rootModel, MP.proj]
    rw [ih, chainComp_assoc]

/-- C8: every `_SubModel` operation is plain function composition and
delegation, so it behaves exactly like the corresponding root-`Model`
operation applied to the composed path function: composed recording is
concatenation of recordings (first conjunct), `observe`/`update`/
`snapshot`/`restore` on any (possibly nested) submodel handle equal the
root operation on the flattened projection (next four conjuncts), and
nesting composes associatively with an unchanged root model (last two
conjuncts). -/
theorem submodel_composes_to_root_operations :
    (∀ c1 c2 : PathChain, chainOps (chainComp c1 c2) = chainOps c1 ++ chainOps c2) ∧
    (∀ (mp : MP) (p : PathChain),
      mp.observeP p = observeProperty mp.rootModel (chainOps (chainComp mp.proj p))) ∧
    (∀ (mp : MP) (fops : List Op),
      mp.updateP fops = updateStateOps mp.rootModel (chainOps mp.proj ++ fops)) ∧
    (∀ (mp : MP) (p : PathChain),
      mp.snapshotP p = snapshotProperty mp.rootModel (chainOps (chainComp mp.proj p))) ∧
    (∀ (mp : MP) (p : PathChain) (snap : Val),
      mp.restoreP p snap =
        restoreProperty mp.rootModel (chainOps (chainComp mp.proj p)) snap) ∧
    (∀ (mp : MP) (p q : PathChain),
      ((mp.submodel p).submodel q).proj = chainComp mp.proj (chainComp p q)) ∧
    (∀ (mp : MP) (p : PathChain), (mp.submodel p).rootModel = mp.rootModel) :=
  ⟨chainOps_comp,
   fun mp p => MP_observeP_eq mp p,
   fun mp fops => MP_updateP_eq mp fops,
   fun mp p => MP_snapshotP_eq mp p,
   fun mp p snap => MP_restoreP_eq mp p snap,
   fun mp p q => by simp only [MP.submodel, MP.proj, chainComp_assoc],
   fun mp p => rfl⟩

/-- Witness for C9: a read and a write with the same key (different
operation kinds and payloads) resolve to the same node position. -/
theorem trie_unique_lazy_persistent_nodes_witness :
    (nodeAtKeys (getNodeForOps emptyNode [Op.getAttr "a"]) [Key.str "a"]).isSome = true ∧
    (nodeAtKeys (getNodeForOps emptyNode
      [Op.setAttr "a" (Val.int 5)]) [Key.str "a"]).isSome = true :=
  ⟨(trie_unique_lazy_persistent_nodes emptyNode [Op.getAttr "a"]
      [Op.setAttr "a" (Val.int 5)] [Key.str "a"]).2.2.1,
   ((trie_unique_lazy_persistent_nodes emptyNode [Op.getAttr "a"]
      [Op.setAttr "a" (Val.int 5)] [Key.str "a"]).2.2.2 rfl).mp
     ((trie_unique_lazy_persistent_nodes emptyNode [Op.getAttr "a"]
      [Op.setAttr "a" (Val.int 5)] [Key.str "a"]).2.2.1)⟩

/-! ### Emission-order infrastructure (C2) -/

/-- The per-statement prefix paths in root-to-leaf order: for a key
list `k1 .. kn` under `base`, the paths `base ++ [k1]`,
`base ++ [k1, k2]`, ..., `base ++ [k1 .. kn]`. -/
def specPrefixes : List Key → List Key → List (List Key)
  | _, [] => []
  | base, k :: ks => (base ++ [k]) :: specPrefixes (base ++ [k]) ks

theorem specPrefixes_mem : ∀ (ks base e : List Key),
    e ∈ specPrefixes base ks → ∃ suf, suf ≠ [] ∧ e = base ++ suf := by
  intro ks
  induction ks with
  | nil => intro base e he; simp [specPrefixes] at he
  | cons k ks ih =>
    intro base e he
    simp only [specPrefixes, List.mem_cons] at he
    rcases he with rfl | he
    · exact ⟨[k], by simp, rfl⟩
    · obtain ⟨suf, hne, hsuf⟩ := ih (base ++ [k]) e he
      exact ⟨k :: suf, by simp, by simp [hsuf, List.append_assoc]⟩

theorem specPrefixes_nodup : ∀ (ks base : List Key), (specPrefixes base ks).Nodup := by
  intro ks
  induction ks with
  | nil => intro base; simp [specPrefixes]
  | cons k ks ih =>
    intro base
    simp only [specPrefixes, List.nodup_cons]
    refine ⟨?_, ih (base ++ [k])⟩
    intro hmem
    obtain ⟨suf, hne, hsuf⟩ := specPrefixes_mem ks (base ++ [k]) (base ++ [k]) hmem
    have := congrArg List.length hsuf
    simp only [List.length_append] at this
    cases suf with
    | nil => exact hne rfl
    | cons a as =>
      simp only [List.length_cons] at this
      omega

/-- Every emission of the descendant cascade sits strictly below the
node the cascade was started from. -/
theorem fireChildList_extends :
    ∀ (cs : List (Key × Node)) (path : List Key) (parent : Val),
      ∀ e ∈ fireChildList cs path parent, ∃ suf, suf ≠ [] ∧ e.1 = path ++ suf :=
  fireChildList.induct
    (fun t path parent => ∀ e ∈ fireAllChildEvents t path parent,
      ∃ suf, suf ≠ [] ∧ e.1 = path ++ suf)
    (fun cs path parent => ∀ e ∈ fireChildList cs path parent,
      ∃ suf, suf ≠ [] ∧ e.1 = path ++ suf)
    (by
      intro a cs path parent ih e he
      exact ih e he)
    (by
      intro path parent e he
      simp [fireChildList] at he)
    (by
      intro k c rest path parent ih1 ih2 e he
      simp only [fireChildList] at he
      rcases List.mem_append.mp he with hm | hm
      · cases hop : c.op with
        | none => rw [hop] at hm; simp at hm
        | some op =>
          rw [hop] at hm
          dsimp only at hm
          cases hv : getValueOp op parent with
          | error err => rw [hv] at hm; simp at hm
          | ok v =>
            rw [hv] at hm
            dsimp only at hm
            simp only [List.mem_cons] at hm
            rcases hm with rfl | hm
            · exact ⟨[k], by simp, rfl⟩
            · obtain ⟨suf, hne, hsuf⟩ := ih1 v e hm
              exact ⟨k :: suf, by simp, by simp [hsuf, List.append_assoc]⟩
      · exact ih2 e hm)

theorem fireAllChildEvents_extends (t : Node) (path : List Key) (parent : Val) :
    ∀ e ∈ fireAllChildEvents t path parent, ∃ suf, suf ≠ [] ∧ e.1 = path ++ suf := by
  obtain ⟨o, cs⟩ := t
  exact fireChildList_extends cs path parent

theorem opsKeys_append (l r : List Op) : opsKeys (l ++ r) = opsKeys l ++ opsKeys r := by
  simp [opsKeys]

/-- The prefix loop of one statement emits exactly at the statement's
key prefixes (in root-to-leaf order) and finishes at the full key path. -/
theorem emitStmtGo_spec : ∀ (stmt : List Op) (st : Val) (t : Node) (curr : List Op)
    (out : Node × List Emission × List Key × Val),
    emitStmtGo st t curr stmt = .ok out →
    out.2.2.1 = opsKeys (curr ++ stmt) ∧
    out.2.1.map Prod.fst = specPrefixes (opsKeys curr) (opsKeys stmt) := by
  intro stmt
  induction stmt with
  | nil =>
    intro st t curr out h
    simp only [emitStmtGo] at h
    cases h
  | cons op rest ih =>
    intro st t curr out h
    cases rest with
    | nil =>
      simp only [emitStmtGo] at h
      cases hv : getValueForOps st (curr ++ [op]) with
      | error e => rw [hv] at h; cases h
      | ok v =>
        rw [hv] at h
        dsimp only at h
        injection h with h
        rw [← h]
        refine ⟨rfl, ?_⟩
        simp [specPrefixes, opsKeys_append, opsKeys]
    | cons op2 rest2 =>
      simp only [emitStmtGo] at h
      cases hv : getValueForOps st (curr ++ [op]) with
      | error e => rw [hv] at h; cases h
      | ok v =>
        rw [hv] at h
        dsimp only at h
        cases hrec : emitStmtGo st (getNodeForOps t (curr ++ [op])) (curr ++ [op])
            (op2 :: rest2) with
        | error e => rw [hrec] at h; cases h
        | ok out2 =>
          rw [hrec] at h
          obtain ⟨t2, es2, p2, v2⟩ := out2
          dsimp only at h
          injection h with h
          obtain ⟨hp, hes⟩ := ih st (getNodeForOps t (curr ++ [op])) (curr ++ [op])
            (t2, es2, p2, v2) hrec
          dsimp only at hp hes
          rw [← h]
          constructor
          · dsimp only
            rw [hp]
            simp [opsKeys_append, opsKeys, List.append_assoc]
          · dsimp only
            rw [List.map_cons, hes]
            simp [specPrefixes, opsKeys_append, opsKeys]

/-- One retained statement's emission block: the prefix emissions (in
root-to-leaf order, one per key prefix), followed by cascade emissions
that all sit strictly below the statement's full key path. -/
theorem emitStmt_spec (st : Val) (t : Node) (stmt : List Op) (t' : Node)
    (es : List Emission) (h : emitStmt st t stmt = .ok (t', es)) :
    ∃ pes ces, es = pes ++ ces ∧
      pes.map Prod.fst = specPrefixes [] (opsKeys stmt) ∧
      (∀ e ∈ ces, ∃ suf, suf ≠ [] ∧ e.1 = opsKeys stmt ++ suf) := by
  simp only [emitStmt] at h
  cases hgo : emitStmtGo st t [] stmt with
  | error e => rw [hgo] at h; cases h
  | ok out =>
    obtain ⟨t1, es1, p1, v1⟩ := out
    rw [hgo] at h
    dsimp only at h
    obtain ⟨hp, hes⟩ := emitStmtGo_spec stmt st t [] (t1, es1, p1, v1) hgo
    dsimp only at hp hes
    simp only [List.nil_append] at hp
    injection h with h
    rw [Prod.mk.injEq] at h
    obtain ⟨rfl, rfl⟩ := h
    refine ⟨es1, _, rfl, ?_, ?_⟩
    · rw [hes]
      rfl
    · intro e he
      cases hn : nodeAtKeys t1 p1 with
      | none => rw [hn] at he; simp at he
      | some n =>
        rw [hn] at he
        obtain ⟨suf, hne, hsuf⟩ := fireAllChildEvents_extends n p1 v1 e he
        exact ⟨suf, hne, by rw [hsuf, hp]⟩

/-- The statement blocks appear in statement order. -/
theorem emitStmts_spec : ∀ (stmts : List (List Op)) (st : Val) (t t' : Node)
    (es : List Emission), emitStmts st t stmts = .ok (t', es) →
    ∃ blocks : List (List Emission), es = blocks.join ∧
      blocks.length = stmts.length ∧
      ∀ i (hi : i < stmts.length) (hb : i < blocks.length),
        ∃ pes ces, blocks.get ⟨i, hb⟩ = pes ++ ces ∧
          pes.map Prod.fst = specPrefixes [] (opsKeys (stmts.get ⟨i, hi⟩)) ∧
          (∀ e ∈ ces, ∃ suf, suf ≠ [] ∧ e.1 = opsKeys (stmts.get ⟨i, hi⟩) ++ suf) := by
  intro stmts
  induction stmts with
  | nil =>
    intro st t t' es h
    simp only [emitStmts] at h
    injection h with h
    rw [Prod.mk.injEq] at h
    obtain ⟨rfl, rfl⟩ := h
    refine ⟨[], rfl, rfl, ?_⟩
    intro i hi; exact absurd hi (by simp)
  | cons stmt rest ih =>
    intro st t t' es h
    simp only [emitStmts] at h
    cases h1 : emitStmt st t stmt with
    | error e => rw [h1] at h; cases h
    | ok out1 =>
      obtain ⟨t1, es1⟩ := out1
      rw [h1] at h
      dsimp only at h
      cases h2 : emitStmts st t1 rest with
      | error e => rw [h2] at h; cases h
      | ok out2 =>
        obtain ⟨t2, es2⟩ := out2
        rw [h2] at h
        dsimp only at h
        injection h with h
        rw [Prod.mk.injEq] at h
        obtain ⟨rfl, rfl⟩ := h
        obtain ⟨blocks, hb1, hb2, hb3⟩ := ih st t1 t2 es2 h2
        refine ⟨es1 :: blocks, ?_, by simp [hb2], ?_⟩
        · rw [hb1]
          rfl
        · intro i hi hb
          cases i with
          | zero =>
            obtain ⟨pes, ces, hsplit, hpes, hces⟩ :=
              emitStmt_spec st t stmt t1 es1 h1
            exact ⟨pes, ces, hsplit, hpes, hces⟩
          | succ j =>
            exact hb3 j (by simpa using hi) (by simpa using hb)

/-- C2: for an update that retained at least one changed statement, the
emission trace is exactly: the root channel once and first (no other
emission has the empty path), then per retained statement — in the
order the statements' final writes completed — a block consisting of
the statement's key-prefix channels in root-to-leaf order (each exactly
once: the prefix-path list is duplicate-free and ends with the
statement's own channel), followed by the descendant cascade, all of
whose emissions lie strictly below the statement's full path (the
cascade itself enumerates, depth-first, exactly the descendant nodes
whose value can be re-derived — see `fireAllChildEvents`). -/
theorem update_notification_order (m : SModel) (ops : List Op) (acc : ExecAcc)
    (hexec : execOps (initAcc m.state) ops = .ok acc)
    (hne : acc.stmts ≠ []) (m' : SModel) (es : List Emission)
    (hupd : updateStateOps m ops = .ok (m', es)) :
    ∃ blocks : List (List Emission),
      es = ([], m'.state) :: blocks.join ∧
      blocks.length = acc.stmts.length ∧
      (∀ e ∈ blocks.join, e.1 ≠ []) ∧
      (∀ i (hi : i < acc.stmts.length) (hb : i < blocks.length),
        ∃ pes ces, blocks.get ⟨i, hb⟩ = pes ++ ces ∧
          pes.map Prod.fst = specPrefixes [] (opsKeys (acc.stmts.get ⟨i, hi⟩)) ∧
          (pes.map Prod.fst).Nodup ∧
          (∀ e ∈ ces, ∃ suf, suf ≠ [] ∧ e.1 = opsKeys (acc.stmts.get ⟨i, hi⟩) ++ suf)) := by
  simp only [updateStateOps, hexec] at hupd
  cases hcs : acc.currStmt with
  | cons x xs => rw [hcs] at hupd; cases hupd
  | nil =>
    rw [hcs] at hupd
    dsimp only at hupd
    cases hstmts : acc.stmts with
    | nil => exact absurd hstmts hne
    | cons s ss =>
      rw [hstmts] at hupd
      cases he : emitStmts acc.state m.root (s :: ss) with
      | error e => rw [he] at hupd; cases hupd
      | ok out =>
        obtain ⟨t1, es1⟩ := out
        rw [he] at hupd
        dsimp only at hupd
        injection hupd with hupd
        rw [Prod.mk.injEq] at hupd
        obtain ⟨rfl, rfl⟩ := hupd
        obtain ⟨blocks, hb1, hb2, hb3⟩ := emitStmts_spec (s :: ss) acc.state m.root t1 es1 he
        refine ⟨blocks, ?_, hb2, ?_, ?_⟩
        · rw [hb1]
        · intro e hemem
          obtain ⟨b, hbmem, hbe⟩ := List.mem_join.mp hemem
          obtain ⟨⟨i, hb⟩, rfl⟩ := List.mem_iff_get.mp hbmem
          have hi : i < (s :: ss).length := by rw [← hb2]; exact hb
          obtain ⟨pes, ces, hsplit, hpes, hces⟩ := hb3 i hi hb
          rw [hsplit] at hbe
          rcases List.mem_append.mp hbe with hm | hm
          · have hmap : e.1 ∈ pes.map Prod.fst := List.mem_map_of_mem _ hm
            rw [hpes] at hmap
            obtain ⟨suf, hsne, hsuf⟩ := specPrefixes_mem _ _ _ hmap
            rw [hsuf]
            simpa using hsne
          · obtain ⟨suf, hsne, hsuf⟩ := hces e hm
            rw [hsuf]
            intro hcon
            exact hsne (List.append_eq_nil.mp hcon).2
        · intro i hi hb
          obtain ⟨pes, ces, hsplit, hpes, hces⟩ := hb3 i hi hb
          exact ⟨pes, ces, hsplit, hpes,
            by rw [hpes]; exact specPrefixes_nodup _ _, hces⟩

/-- Fixtures for the C2 witness: the update
`x.a = 9; x.b.c = 5` on `exModel`. -/
def exStateA9C5 : Val :=
  .record "AppState" [(.str "a", .int 9), (.str "b", .record "B" [(.str "c", .int 5)])]

/-- The trie after the witness update. -/
def exTrieA9C5 : Node :=
  .mk none [(.str "a", .mk (some (.setAttr "a" (.int 9))) []),
            (.str "b", .mk (some (.getAttr "b"))
              [(.str "c", .mk (some (.setAttr "c" (.int 5))) [])])]

/-- The loop accumulator after the witness update. -/
def exAccA9C5 : ExecAcc :=
  ⟨exStateA9C5, .val [], [],
   [[.setAttr "a" (.int 9)], [.getAttr "b", .setAttr "c" (.int 5)]]⟩

/-- The model after the witness update. -/
def exModelA9C5 : SModel := ⟨exStateA9C5, exTrieA9C5⟩

/-- The emission trace of the witness update. -/
def exEmsA9C5 : List Emission :=
  [([], exStateA9C5), ([.str "a"], .int 9),
   ([.str "b"], .record "B" [(.str "c", .int 5)]),
   ([.str "b", .str "c"], .int 5)]

/-- Witness for C2 at a concrete two-statement update. -/
theorem update_notification_order_witness :
    ∃ blocks : List (List Emission),
      exEmsA9C5 = ([], exModelA9C5.state) :: blocks.join ∧
      blocks.length = exAccA9C5.stmts.length ∧
      (∀ e ∈ blocks.join, e.1 ≠ []) ∧
      (∀ i (hi : i < exAccA9C5.stmts.length) (hb : i < blocks.length),
        ∃ pes ces, blocks.get ⟨i, hb⟩ = pes ++ ces ∧
          pes.map Prod.fst = specPrefixes [] (opsKeys (exAccA9C5.stmts.get ⟨i, hi⟩)) ∧
          (pes.map Prod.fst).Nodup ∧
          (∀ e ∈ ces, ∃ suf, suf ≠ [] ∧
            e.1 = opsKeys (exAccA9C5.stmts.get ⟨i, hi⟩) ++ suf)) :=
  update_notification_order exModel
    [.setAttr "a" (.int 9), .getAttr "b", .setAttr "c" (.int 5)]
    exAccA9C5 rfl (by simp [exAccA9C5]) exModelA9C5 exEmsA9C5 rfl

end Soso
